import Mathlib

/-
Shallow embedding of src/gemini_webapi/utils/get_access_token.py.

The Python function get_access_token(base_cookies, proxy, verbose) collects
candidate cookie dicts from three sources (the base cookies passed in, the
on-disk cache of __Secure-1PSIDTS values, and the local browser cookie
store), launches one HTTP probe per candidate, consumes completions in
arrival order, returns the token extracted from the first response whose
body matches the regex "SNlM0e":"(.*?)", and raises AuthError with the
attempt count when every candidate is exhausted.

External collaborators (filesystem cache, browser store, network) are
modelled by an Env record; Python exceptions are modelled with Except.
The completion order of the concurrent probes is an explicit permutation
of the launched task list.
-/

set_option autoImplicit false

namespace GeminiAuth

/-- Python dict of cookies: an association list from cookie name to value.
Lookups and membership tests use the first matching key, and insertion
replaces the value in place, matching Python dict semantics on the
duplicate-free lists that Python dicts denote. -/
abbrev Dict := List (String × String)

/-- Python membership test, as in the expression testing whether the string
is a key of the cookie dict. -/
def hasKey (d : Dict) (k : String) : Bool :=
  d.any (fun p => p.1 == k)

/-- Python dict lookup, returning the value of the first matching key. -/
def getVal (d : Dict) (k : String) : Option String :=
  d.lookup k

/-- Python dict-splat update: build a new dict from d with key k bound to v,
replacing the value in place when k is already a key and appending
otherwise. -/
def dictInsert (d : Dict) (k v : String) : Dict :=
  if hasKey d k then d.map (fun p => if p.1 == k then (k, v) else p)
  else d ++ [(k, v)]

/-- Name of the primary identity cookie. -/
def secure1psid : String := "__Secure-1PSID"

/-- Name of the secondary cookie. -/
def secure1psidts : String := "__Secure-1PSIDTS"

/-- Characters of the fixed marker text that precedes the token in the
response body, i.e. a double quote, SNlM0e, a double quote, a colon and a
double quote. -/
def markerChars : List Char := "\"SNlM0e\":\"".data

/-- Read characters up to the first closing double quote, as the lazy
group of the regex does: the dot of the regex does not match a newline, so
a newline before the closing quote makes the match at this position fail. -/
def takeToClose : List Char → Option (List Char)
  | [] => none
  | c :: cs =>
    if c = '"' then some []
    else if c = '\n' then none
    else (takeToClose cs).map (fun t => c :: t)

/-- Leftmost-first search for the marker regex over the character list:
at each position, if the marker matches and a closing quote follows on the
same line, return the shortest captured group; otherwise advance one
character, as re.search does. -/
def searchTokenAux : List Char → Option (List Char)
  | [] => none
  | c :: cs =>
    if markerChars.isPrefixOf (c :: cs) then
      match takeToClose ((c :: cs).drop markerChars.length) with
      | some t => some t
      | none => searchTokenAux cs
    else searchTokenAux cs

/-- Model of re.search applied to the response body with the marker
pattern, returning the captured token when the pattern occurs. -/
def searchToken (body : String) : Option String :=
  (searchTokenAux body.data).map (fun cs => String.mk cs)

/-- Outcome of the underlying HTTP GET for one cookie dict: either a raised
transport exception or a response with a status code and a body text. -/
inductive NetResult where
  | exn (e : String)
  | resp (status : Nat) (text : String)
deriving Repr, DecidableEq

/-- An httpx Response as used by the coordinator: status code and body. -/
structure Response where
  status : Nat
  text : String
deriving Repr, DecidableEq

/-- Status codes for which raise_for_status does not raise: the 2xx
success range. -/
def isSuccessStatus (s : Nat) : Bool := 200 ≤ s && s < 300

/-- Model of the inner send_request coroutine: perform the GET with the
given cookies, call raise_for_status (raising on a non-2xx status), and
return the response together with the cookies that were sent. -/
def send_request (net : Dict → NetResult) (cookies : Dict) :
    Except String (Response × Dict) :=
  match net cookies with
  | .exn e => .error e
  | .resp status text =>
    if isSuccessStatus status then .ok ({ status := status, text := text }, cookies)
    else .error ("HTTPStatusError " ++ toString status)

/-- Environment of external collaborators: the cache directory listing
(filename paired with the result of reading it), the browser cookie store
(an exception or a cookie dict), and the network behaviour per cookie
dict. -/
structure Env where
  cacheFiles : List (String × Except String String)
  browser : Except String Dict
  net : Dict → NetResult

/-- Filesystem test used on the keyed cache file. -/
def isFile (env : Env) (name : String) : Bool :=
  (env.cacheFiles.lookup name).isSome

/-- Model of read_text on a cache file: the recorded content or read
error; reading an absent file is an error. -/
def readText (env : Env) (name : String) : Except String String :=
  match env.cacheFiles.lookup name with
  | some r => r
  | none => .error "FileNotFoundError"

/-- The fixed leading part of every cache filename; it has 16
characters, which is why the scan branch slices the stem at index 16. -/
def cacheHead : String := ".cached_1psidts_"

/-- Cache filename built by the keyed branch for one identity value. -/
def cacheFileName (psid : String) : String := cacheHead ++ psid ++ ".txt"

/-- Glob test for the scan pattern: the fixed leading part, anything, then
the .txt extension. -/
def globMatch (name : String) : Bool :=
  cacheHead.data.isPrefixOf name.data && ".txt".data.isSuffixOf name.data

/-- The cache directory entries matched by the glob, in directory order. -/
def globFiles (env : Env) : List (String × Except String String) :=
  env.cacheFiles.filter (fun p => globMatch p.1)

/-- Drop characters of the reversed name up to and including the first
dot; none when the name has no dot. -/
def chopAfterDot : List Char → Option (List Char)
  | [] => none
  | c :: cs => if c = '.' then some cs else chopAfterDot cs

/-- Model of pathlib stem on a flat filename: the name without its last
extension, where an extension needs a dot that is neither the first nor
the last character. -/
def stemOf (name : String) : String :=
  match name.data.reverse with
  | [] => name
  | c :: rest =>
    if c = '.' then name
    else
      match chopAfterDot (c :: rest) with
      | none => name
      | some r => if r.isEmpty then name else String.mk r.reverse

/-- Python string slicing from a character index to the end. -/
def strDrop (s : String) (n : Nat) : String := String.mk (s.data.drop n)

/-- Candidate reconstructed by the scan branch from one cache file: the
identity key is the stem of the filename sliced from index 16 and the
secondary key is the stored content. -/
def scanCandidate (name content : String) : Dict :=
  [(secure1psid, strDrop (stemOf name) 16), (secure1psidts, content)]

/-- Candidates from the direct source: the base cookies themselves when
both required keys are present. -/
def directTasks (base : Dict) : List Dict :=
  if hasKey base secure1psid && hasKey base secure1psidts then [base] else []

/-- Scan branch over the glob-matched cache files: read each in order (a
read error propagates), and for each non-empty content add the
reconstructed candidate. -/
def scanTasks : List (String × Except String String) → Except String (List Dict)
  | [] => .ok []
  | (name, r) :: rest =>
    match r with
    | .error e => .error e
    | .ok content =>
      match scanTasks rest with
      | .error e => .error e
      | .ok tail =>
        if content ≠ "" then .ok (scanCandidate name content :: tail)
        else .ok tail

/-- Candidates from the cache source. With the identity key present in the
base cookies, the keyed branch reads the single file named after it and,
when the file exists with non-empty content, contributes the base cookies
enriched with the cached secondary value. Without the identity key, the
scan branch contributes one reconstructed candidate per non-empty
glob-matched file. -/
def cacheTasks (base : Dict) (env : Env) : Except String (List Dict) :=
  match getVal base secure1psid with
  | some psid =>
    let name := cacheFileName psid
    if isFile env name then
      match readText env name with
      | .error e => .error e
      | .ok content =>
        if content ≠ "" then .ok [dictInsert base secure1psidts content]
        else .ok []
    else .ok []
  | none => scanTasks (globFiles env)

/-- Candidates from the browser source. Any exception from
load_browser_cookies is swallowed and yields no candidate; with a
non-empty store holding a truthy identity value, one candidate is built
from it, together with the secondary value when that is truthy. -/
def browserTasks (env : Env) : List Dict :=
  match env.browser with
  | .error _ => []
  | .ok bc =>
    if bc ≠ [] then
      match getVal bc secure1psid with
      | some v =>
        if v ≠ "" then
          match getVal bc secure1psidts with
          | some w =>
            if w ≠ "" then [[(secure1psid, v), (secure1psidts, w)]]
            else [[(secure1psid, v)]]
          | none => [[(secure1psid, v)]]
        else []
      | none => []
    else []

/-- The full ordered task list launched into the race: direct source, then
cache source, then browser source. A cache read error propagates before
the browser source runs, as in the source. -/
def collectTasks (base : Dict) (env : Env) : Except String (List Dict) :=
  match cacheTasks base env with
  | .error e => .error e
  | .ok cache => .ok (directTasks base ++ cache ++ browserTasks env)

/-- Body of the race consumption loop for one completed probe: awaiting a
future that raised (transport error or non-2xx status) counts as none, a
response whose body lacks the marker counts as none, and a marker-bearing
response yields the captured token with the cookies that were sent. -/
def probeSuccess (net : Dict → NetResult) (c : Dict) : Option (String × Dict) :=
  match send_request net c with
  | .error _ => none
  | .ok (resp, requestCookies) =>
    match searchToken resp.text with
    | some tok => some (tok, requestCookies)
    | none => none

/-- The race consumption loop over the completion order: for each
completed probe, an exception or a marker-less body is skipped and
consumption continues; the first marker-bearing response returns its token
and cookies. -/
def raceLoop (net : Dict → NetResult) : List Dict → Option (String × Dict)
  | [] => none
  | c :: rest =>
    match probeSuccess net c with
    | some result => some result
    | none => raceLoop net rest

/-- Exceptions that get_access_token can raise: the typed AuthError
carrying its message, or an uncaught Python exception. -/
inductive Exc where
  | authError (msg : String)
  | pyError (e : String)
deriving Repr, DecidableEq

/-- The AuthError message built at the raise site, embedding the number of
launched tasks. -/
def authErrorMsg (attempts : Nat) : String :=
  "Failed to initialize client. SECURE_1PSIDTS could get expired frequently, please make sure cookie values are up to date. (Failed initialization attempts: "
    ++ toString attempts ++ ")"

/-- Model of get_access_token: collect the task list (a cache read error
propagates as an uncaught exception), consume the completion order, and
on exhaustion raise AuthError with the task count. The order argument is
the completion order of the concurrent probes; theorems relate it to the
task list by permutation. -/
def get_access_token (base : Dict) (env : Env) (order : List Dict) :
    Except Exc (String × Dict) :=
  match collectTasks base env with
  | .error e => .error (.pyError e)
  | .ok tasks =>
    match raceLoop env.net order with
    | some result => .ok result
    | none => .error (.authError (authErrorMsg tasks.length))

end GeminiAuth

namespace GeminiAuth

theorem raceLoop_cons (net : Dict → NetResult) (c : Dict) (rest : List Dict) :
    raceLoop net (c :: rest) =
      match probeSuccess net c with
      | some r => some r
      | none => raceLoop net rest := rfl

theorem raceLoop_none_of_all_fail (net : Dict → NetResult) (l : List Dict)
    (hf : ∀ c ∈ l, probeSuccess net c = none) : raceLoop net l = none := by
  induction l with
  | nil => rfl
  | cons c rest ih =>
    rw [raceLoop_cons, hf c (List.mem_cons_self c rest)]
    exact ih fun d hd => hf d (List.mem_cons_of_mem c hd)

theorem raceLoop_first_success (net : Dict → NetResult) (l : List Dict)
    (c₀ : Dict) (tok : String) (hm : c₀ ∈ l)
    (hs : probeSuccess net c₀ = some (tok, c₀))
    (hf : ∀ c ∈ l, c ≠ c₀ → probeSuccess net c = none) :
    raceLoop net l = some (tok, c₀) := by
  induction l with
  | nil => cases hm
  | cons c rest ih =>
    by_cases hc : c = c₀
    · subst hc
      rw [raceLoop_cons, hs]
    · rw [raceLoop_cons, hf c (List.mem_cons_self c rest) hc]
      have hm' : c₀ ∈ rest := by
        rcases List.mem_cons.mp hm with h | h
        · exact absurd h.symm hc
        · exact h
      exact ih hm' fun d hd => hf d (List.mem_cons_of_mem c hd)

/-- Claim C1: for every candidate list in which no probe produces a
marker-bearing response (the empty list included), get_access_token raises
AuthError with a message embedding the total number of candidates
launched: with zero candidates the count is 0 and with N all-failing
candidates the count is N. -/
theorem c1_all_fail_auth_error (base : Dict) (env : Env)
    (order tasks : List Dict)
    (hc : collectTasks base env = .ok tasks) (hp : order.Perm tasks)
    (hf : ∀ c ∈ order, probeSuccess env.net c = none) :
    get_access_token base env order
        = .error (.authError (authErrorMsg tasks.length))
      ∧ order.length = tasks.length
      ∧ ∃ a b, authErrorMsg tasks.length = a ++ toString tasks.length ++ b := by
  refine ⟨?_, hp.length_eq, ?_⟩
  · unfold get_access_token
    rw [hc, raceLoop_none_of_all_fail env.net order hf]
  · exact ⟨"Failed to initialize client. SECURE_1PSIDTS could get expired frequently, please make sure cookie values are up to date. (Failed initialization attempts: ",
      ")", rfl⟩

/-- Environment with no cache files, a failing browser store, and a
network on which every request raises. -/
def envBare : Env :=
  { cacheFiles := [], browser := .error "no browser", net := fun _ => .exn "conn" }

theorem c1_all_fail_auth_error_witness :
    collectTasks [] envBare = .ok []
      ∧ get_access_token [] envBare [] = .error (.authError (authErrorMsg 0)) := by
  refine ⟨rfl, ?_⟩
  have h := c1_all_fail_auth_error [] envBare [] [] rfl (List.Perm.refl [])
    (by intro c hc; cases hc)
  exact h.1

/-- Claim C2: for every candidate list in which exactly one candidate
probes to a marker-bearing response, get_access_token returns that
token of that candidate together with the exact cookie set sent for it,
whatever the position of the candidate and whatever the completion order of
the failing probes. -/
theorem c2_unique_success_wins (base : Dict) (env : Env)
    (order tasks : List Dict) (c₀ : Dict) (tok : String)
    (hc : collectTasks base env = .ok tasks) (hp : order.Perm tasks)
    (hm : c₀ ∈ order) (hs : probeSuccess env.net c₀ = some (tok, c₀))
    (hf : ∀ c ∈ order, c ≠ c₀ → probeSuccess env.net c = none) :
    get_access_token base env order = .ok (tok, c₀) := by
  unfold get_access_token
  rw [hc, raceLoop_first_success env.net order c₀ tok hm hs hf]

/-- Environment whose browser store holds one identity cookie and whose
network answers a marker-bearing body for the browser candidate only. -/
def envBrowserWin : Env :=
  { cacheFiles := []
    browser := .ok [(secure1psid, "B")]
    net := fun c =>
      if c = [(secure1psid, "B")] then .resp 200 "pre \"SNlM0e\":\"tokB\" post"
      else .exn "conn" }

theorem c2_unique_success_wins_witness :
    get_access_token [] envBrowserWin [[(secure1psid, "B")]]
      = .ok ("tokB", [(secure1psid, "B")]) := by
  apply c2_unique_success_wins [] envBrowserWin _ [[(secure1psid, "B")]]
    [(secure1psid, "B")] "tokB" rfl (List.Perm.refl _) (by simp) rfl
  intro c hc hne
  rcases List.mem_singleton.mp hc with h
  exact absurd h hne

end GeminiAuth

namespace GeminiAuth

theorem mem_of_lookup_eq_some {α β : Type} [BEq α] [LawfulBEq α]
    {l : List (α × β)} {k : α} {v : β} (h : l.lookup k = some v) : (k, v) ∈ l := by
  induction l with
  | nil => cases h
  | cons p rest ih =>
    obtain ⟨k', v'⟩ := p
    by_cases hk : k == k'
    · rw [List.lookup_cons] at h
      simp only [hk] at h
      have : v' = v := by simpa using h
      subst this
      have : k = k' := by simpa using hk
      subst this
      exact List.mem_cons_self _ _
    · rw [List.lookup_cons] at h
      simp only [hk] at h
      exact List.mem_cons_of_mem _ (ih (by simpa using h))

theorem scanTasks_ok {l : List (String × Except String String)}
    (h : ∀ p ∈ l, ∃ s, p.2 = Except.ok s) : ∃ ds, scanTasks l = .ok ds := by
  induction l with
  | nil => exact ⟨[], rfl⟩
  | cons p rest ih =>
    obtain ⟨name, r⟩ := p
    obtain ⟨s, hs⟩ := h (name, r) (List.mem_cons_self _ _)
    obtain ⟨ds, hds⟩ := ih fun q hq => h q (List.mem_cons_of_mem _ hq)
    simp only at hs
    subst hs
    unfold scanTasks
    rw [hds]
    by_cases hne : s ≠ ""
    · exact ⟨scanCandidate name s :: ds, by simp [hne]⟩
    · exact ⟨ds, by simp [hne]⟩

theorem cacheTasks_ok (base : Dict) (env : Env)
    (hread : ∀ p ∈ env.cacheFiles, ∃ s, p.2 = Except.ok s) :
    ∃ ts, cacheTasks base env = .ok ts := by
  unfold cacheTasks
  cases hv : getVal base secure1psid with
  | none =>
    exact scanTasks_ok fun p hp => hread p (List.mem_of_mem_filter hp)
  | some psid =>
    simp only
    by_cases hfile : isFile env (cacheFileName psid)
    · rw [if_pos hfile]
      unfold isFile at hfile
      cases hl : env.cacheFiles.lookup (cacheFileName psid) with
      | none => rw [hl] at hfile; cases hfile
      | some r =>
        obtain ⟨s, hs⟩ := hread (cacheFileName psid, r) (mem_of_lookup_eq_some hl)
        simp only at hs
        subst hs
        unfold readText
        rw [hl]
        by_cases hne : s ≠ ""
        · exact ⟨[dictInsert base secure1psidts s], by simp [hne]⟩
        · exact ⟨[], by simp [hne]⟩
    · rw [if_neg hfile]
      exact ⟨[], rfl⟩

theorem collectTasks_ok (base : Dict) (env : Env)
    (hread : ∀ p ∈ env.cacheFiles, ∃ s, p.2 = Except.ok s) :
    ∃ tasks, collectTasks base env = .ok tasks := by
  obtain ⟨ts, hts⟩ := cacheTasks_ok base env hread
  exact ⟨directTasks base ++ ts ++ browserTasks env, by unfold collectTasks; rw [hts]⟩

/-- Classifier distinguishing the typed authentication error from every
other raised exception. -/
def isAuthError : Exc → Bool
  | .authError _ => true
  | .pyError _ => false

/-- Environment whose cache directory holds one file for identity x whose
read raises a permission error. -/
def envCacheReadError : Env :=
  { cacheFiles := [(cacheFileName "x", .error "PermissionError")]
    browser := .error "no browser"
    net := fun _ => .exn "conn" }

/-- Claim C3 counterexample: with base cookies holding identity x and a
cache file for x whose read raises, get_access_token propagates the read
error itself, an exception that is not the typed authentication error, so
a cache read failure is not caught at its own boundary. -/
theorem c3_counterexample :
    get_access_token [(secure1psid, "x")] envCacheReadError []
        = .error (.pyError "PermissionError")
      ∧ isAuthError (.pyError "PermissionError") = false :=
  ⟨rfl, rfl⟩

/-- Claim C3 as amended: per-candidate probe errors and browser-store
failures are caught at their own boundaries, so whenever every cache read
succeeds, get_access_token either returns a result or raises exactly the
typed authentication error carrying the count of launched candidates; a
cache read failure, however, propagates uncaught. -/
theorem c3_amended_only_auth_error (base : Dict) (env : Env)
    (order : List Dict)
    (hread : ∀ p ∈ env.cacheFiles, ∃ s, p.2 = Except.ok s) :
    ∃ tasks, collectTasks base env = .ok tasks
      ∧ (get_access_token base env order
            = .error (.authError (authErrorMsg tasks.length))
          ∨ ∃ r, get_access_token base env order = .ok r) := by
  obtain ⟨tasks, htasks⟩ := collectTasks_ok base env hread
  refine ⟨tasks, htasks, ?_⟩
  unfold get_access_token
  rw [htasks]
  cases hr : raceLoop env.net order with
  | none => exact Or.inl rfl
  | some r => exact Or.inr ⟨r, rfl⟩

theorem c3_amended_only_auth_error_witness :
    ∃ tasks, collectTasks [] envBare = .ok tasks
      ∧ (get_access_token [] envBare []
            = .error (.authError (authErrorMsg tasks.length))
          ∨ ∃ r, get_access_token [] envBare [] = .ok r) :=
  c3_amended_only_auth_error [] envBare [] (by intro p hp; cases hp)

/-- Claim C7: every failure of the browser-cookie source is swallowed
inside get_access_token: the browser source contributes zero candidates
and the collected task list is exactly the direct and cache candidates,
with no exception from the browser store reaching the caller. -/
theorem c7_browser_failure_swallowed (base : Dict) (env : Env) (e : String)
    (hb : env.browser = .error e) :
    browserTasks env = []
      ∧ collectTasks base env
          = (cacheTasks base env).map (fun ts => directTasks base ++ ts) := by
  have hbt : browserTasks env = [] := by unfold browserTasks; rw [hb]
  refine ⟨hbt, ?_⟩
  unfold collectTasks
  cases hc : cacheTasks base env with
  | error err => rfl
  | ok ts => simp [Except.map, hbt]

theorem c7_browser_failure_swallowed_witness :
    browserTasks envBare = []
      ∧ collectTasks [] envBare
          = (cacheTasks [] envBare).map (fun ts => directTasks [] ++ ts) :=
  c7_browser_failure_swallowed [] envBare "no browser" rfl

end GeminiAuth

namespace GeminiAuth

theorem stemOf_cacheFileName (k : String) :
    stemOf (cacheFileName k) = cacheHead ++ k := by
  have hdata : (cacheFileName k).data
      = cacheHead.data ++ (k.data ++ ['.', 't', 'x', 't']) := by
    simp [cacheFileName, String.data_append]
  have hrev : (cacheFileName k).data.reverse
      = 't' :: 'x' :: 't' :: '.' :: (k.data.reverse ++ cacheHead.data.reverse) := by
    rw [hdata]
    simp [List.reverse_append]
  have hne : (k.data.reverse ++ cacheHead.data.reverse).isEmpty = false := by
    cases h : k.data.reverse ++ cacheHead.data.reverse with
    | nil =>
      have h2 := List.append_eq_nil.mp h
      have h3 : cacheHead.data.reverse ≠ [] := by decide
      exact absurd h2.2 h3
    | cons a t => rfl
  have hmk : String.mk (cacheHead.data ++ k.data) = cacheHead ++ k := by
    have h := String.data_append cacheHead k
    rw [← h]
  unfold stemOf
  rw [hrev]
  simp only [chopAfterDot]
  simp [hne, hmk]

/-- Claim C6: for every identity-key string k, slicing the stem of the
filename the keyed branch builds for k at character 16 recovers exactly k,
the glob of the scan branch matches that filename, and the candidate the
scan branch reconstructs from it carries identity key k and the stored
secondary value. -/
theorem c6_cache_name_roundtrip (k v : String) :
    globMatch (cacheFileName k) = true
      ∧ strDrop (stemOf (cacheFileName k)) 16 = k
      ∧ scanCandidate (cacheFileName k) v = [(secure1psid, k), (secure1psidts, v)] := by
  have hdrop : strDrop (stemOf (cacheFileName k)) 16 = k := by
    rw [stemOf_cacheFileName]
    unfold strDrop
    rw [String.data_append]
    have h16 : cacheHead.data.length = 16 := by decide
    rw [← h16, List.drop_left]
  refine ⟨?_, hdrop, ?_⟩
  · unfold globMatch
    apply Bool.and_eq_true_iff.mpr
    constructor
    · rw [ List.isPrefixOf_iff_prefix]
      refine ⟨k.data ++ ['.', 't', 'x', 't'], ?_⟩
      simp [cacheFileName, String.data_append]
    · rw [List.isSuffixOf_iff_suffix]
      refine ⟨cacheHead.data ++ k.data, ?_⟩
      have htxt : (".txt" : String).data = ['.', 't', 'x', 't'] := rfl
      simp [cacheFileName, String.data_append, htxt]
  · unfold scanCandidate
    rw [hdrop]

theorem cacheTasks_keyed (base : Dict) (env : Env) (k v : String)
    (hpsid : getVal base secure1psid = some k)
    (hfile : isFile env (cacheFileName k) = true)
    (hread : readText env (cacheFileName k) = .ok v)
    (hv : v ≠ "") :
    cacheTasks base env = .ok [dictInsert base secure1psidts v] := by
  unfold cacheTasks
  rw [hpsid]
  simp only [hfile, if_true, hread]
  rw [if_pos hv]

/-- Claim C4: with the primary identity key present in the base cookies
and a non-empty cache entry stored for it, the cache source contributes
exactly one candidate, the base cookies enriched with the cached
secondary value, and the full task list is the direct candidate list,
that single enriched candidate, then the browser candidates; scan-derived
candidates can only arise when the identity key is absent from the base
cookies. -/
theorem c4_keyed_cache_single_candidate (base : Dict) (env : Env)
    (k v : String)
    (hpsid : getVal base secure1psid = some k)
    (hfile : isFile env (cacheFileName k) = true)
    (hread : readText env (cacheFileName k) = .ok v)
    (hv : v ≠ "") :
    cacheTasks base env = .ok [dictInsert base secure1psidts v]
      ∧ collectTasks base env
          = .ok (directTasks base ++ [dictInsert base secure1psidts v]
              ++ browserTasks env)
      ∧ (∀ base' : Dict, getVal base' secure1psid = none →
          cacheTasks base' env = scanTasks (globFiles env)) := by
  have hcache := cacheTasks_keyed base env k v hpsid hfile hread hv
  refine ⟨hcache, ?_, ?_⟩
  · unfold collectTasks
    rw [hcache]
  · intro base' hb
    unfold cacheTasks
    rw [hb]

/-- Environment with a single non-empty cache entry for identity K. -/
def envCacheK : Env :=
  { cacheFiles := [(cacheFileName "K", .ok "V")]
    browser := .error "no browser"
    net := fun _ => .exn "conn" }

theorem c4_keyed_cache_single_candidate_witness :
    cacheTasks [(secure1psid, "K")] envCacheK
        = .ok [dictInsert [(secure1psid, "K")] secure1psidts "V"]
      ∧ collectTasks [(secure1psid, "K")] envCacheK
          = .ok (directTasks [(secure1psid, "K")]
              ++ [dictInsert [(secure1psid, "K")] secure1psidts "V"]
              ++ browserTasks envCacheK)
      ∧ (∀ base' : Dict, getVal base' secure1psid = none →
          cacheTasks base' envCacheK = scanTasks (globFiles envCacheK)) :=
  c4_keyed_cache_single_candidate [(secure1psid, "K")] envCacheK "K" "V"
    rfl rfl rfl (by decide)

end GeminiAuth

namespace GeminiAuth

theorem takeToClose_decomp {l t : List Char} (h : takeToClose l = some t) :
    ∃ b, l = t ++ '"' :: b := by
  induction l generalizing t with
  | nil => cases h
  | cons c cs ih =>
    unfold takeToClose at h
    by_cases hq : c = '"'
    · rw [if_pos hq] at h
      have ht : t = [] := by simpa using h.symm
      subst ht
      exact ⟨cs, by simp [hq]⟩
    · rw [if_neg hq] at h
      by_cases hn : c = '\n'
      · rw [if_pos hn] at h; cases h
      · rw [if_neg hn] at h
        cases hc : takeToClose cs with
        | none => rw [hc] at h; cases h
        | some t' =>
          rw [hc] at h
          have ht : t = c :: t' := by simpa using h.symm
          subst ht
          obtain ⟨b, hb⟩ := ih hc
          exact ⟨b, by simp [hb]⟩

theorem searchTokenAux_decomp {l t : List Char} (h : searchTokenAux l = some t) :
    ∃ a b, l = a ++ markerChars ++ t ++ '"' :: b := by
  induction l generalizing t with
  | nil => cases h
  | cons c cs ih =>
    unfold searchTokenAux at h
    by_cases hp : markerChars.isPrefixOf (c :: cs)
    · rw [if_pos hp] at h
      cases htc : takeToClose ((c :: cs).drop markerChars.length) with
      | some t0 =>
        rw [htc] at h
        have ht : t0 = t := by simpa using h
        subst ht
        obtain ⟨rest, hrest⟩ := List.isPrefixOf_iff_prefix.mp hp
        have hdrop : (c :: cs).drop markerChars.length = rest := by
          rw [← hrest, List.drop_left]
        rw [hdrop] at htc
        obtain ⟨b, hb⟩ := takeToClose_decomp htc
        refine ⟨[], b, ?_⟩
        rw [← hrest, hb]
        simp
      | none =>
        rw [htc] at h
        obtain ⟨a, b, hab⟩ := ih h
        exact ⟨c :: a, b, by rw [hab]; rfl⟩
    · rw [if_neg hp] at h
      obtain ⟨a, b, hab⟩ := ih h
      exact ⟨c :: a, b, by rw [hab]; rfl⟩

theorem searchToken_marker {body tok : String} (h : searchToken body = some tok) :
    ∃ a b, body.data = a ++ markerChars ++ tok.data ++ '"' :: b := by
  unfold searchToken at h
  cases hs : searchTokenAux body.data with
  | none => rw [hs] at h; cases h
  | some cs =>
    rw [hs] at h
    have ht : String.mk cs = tok := by simpa using h
    obtain ⟨a, b, hab⟩ := searchTokenAux_decomp hs
    subst ht
    exact ⟨a, b, hab⟩

theorem probeSuccess_eq (net : Dict → NetResult) (c : Dict) :
    probeSuccess net c =
      match net c with
      | .exn _ => none
      | .resp st text =>
        if isSuccessStatus st then
          match searchToken text with
          | some tok => some (tok, c)
          | none => none
        else none := by
  unfold probeSuccess send_request
  cases net c with
  | exn e => rfl
  | resp st text =>
    by_cases h : isSuccessStatus st <;> simp [h]

/-- Claim C5: one probe is classified a success iff the HTTP response has
a 2xx status and its body carries the marker pattern: a raised transport
error or non-2xx status is a loss for the candidate alone, a success
status whose body lacks the marker is likewise a loss, and any extracted
token sits between the literal marker text and a closing double quote in
the body. -/
theorem c5_probe_classification (net : Dict → NetResult) (c : Dict) :
    ((∃ r, probeSuccess net c = some r)
        ↔ ∃ st text tok, net c = .resp st text ∧ isSuccessStatus st = true
            ∧ searchToken text = some tok)
      ∧ (∀ st text, net c = .resp st text → isSuccessStatus st = false →
          probeSuccess net c = none)
      ∧ (∀ st text, net c = .resp st text → searchToken text = none →
          probeSuccess net c = none)
      ∧ (∀ e, net c = .exn e → probeSuccess net c = none)
      ∧ (∀ text tok, searchToken text = some tok →
          ∃ a b, text.data = a ++ markerChars ++ tok.data ++ '"' :: b) := by
  refine ⟨⟨?_, ?_⟩, ?_, ?_, ?_, fun text tok h => searchToken_marker h⟩
  · rintro ⟨r, hr⟩
    rw [probeSuccess_eq] at hr
    cases hnet : net c with
    | exn e => rw [hnet] at hr; cases hr
    | resp st text =>
      rw [hnet] at hr
      cases hst : isSuccessStatus st with
      | false => simp [hst] at hr
      | true =>
        cases hsearch : searchToken text with
        | none => simp [hst, hsearch] at hr
        | some tok => exact ⟨st, text, tok, rfl, hst, hsearch⟩
  · rintro ⟨st, text, tok, hnet, hst, hsearch⟩
    rw [probeSuccess_eq, hnet]
    exact ⟨(tok, c), by simp [hst, hsearch]⟩
  · intro st text hnet hst
    rw [probeSuccess_eq, hnet]
    simp [hst]
  · intro st text hnet hsearch
    rw [probeSuccess_eq, hnet]
    cases hst : isSuccessStatus st <;> simp [hst, hsearch]
  · intro e hnet
    rw [probeSuccess_eq, hnet]

theorem c5_probe_classification_witness :
    probeSuccess envBare.net [] = none
      ∧ ∃ r, probeSuccess envBrowserWin.net [(secure1psid, "B")] = some r :=
  ⟨(c5_probe_classification envBare.net []).2.2.2.1 "conn" rfl,
    (c5_probe_classification envBrowserWin.net [(secure1psid, "B")]).1.mpr
      ⟨200, "pre \"SNlM0e\":\"tokB\" post", "tokB", rfl, rfl, rfl⟩⟩

end GeminiAuth

namespace GeminiAuth

theorem psid_beq_psidts : (secure1psid == secure1psidts) = false := by decide

/-- Claim C8: starting from base cookies holding only the identity key,
with a matching non-empty cache entry whose value is merged into the base
cookies and a probe of the merged set answering a 2xx body whose marker
carries abc123, get_access_token returns the token abc123 together with
the merged cookie set. -/
theorem c8_merged_cache_success (k v : String) (env : Env) (st : Nat)
    (body : String)
    (hbrowser : browserTasks env = [])
    (hfile : isFile env (cacheFileName k) = true)
    (hread : readText env (cacheFileName k) = .ok v)
    (hv : v ≠ "")
    (hnet : env.net [(secure1psid, k), (secure1psidts, v)] = .resp st body)
    (hst : isSuccessStatus st = true)
    (htok : searchToken body = some "abc123") :
    dictInsert [(secure1psid, k)] secure1psidts v
        = [(secure1psid, k), (secure1psidts, v)]
      ∧ collectTasks [(secure1psid, k)] env
          = .ok [[(secure1psid, k), (secure1psidts, v)]]
      ∧ get_access_token [(secure1psid, k)] env
          [[(secure1psid, k), (secure1psidts, v)]]
          = .ok ("abc123", [(secure1psid, k), (secure1psidts, v)]) := by
  have hgv : getVal [(secure1psid, k)] secure1psid = some k := by
    simp [getVal, List.lookup]
  have hmerge : dictInsert [(secure1psid, k)] secure1psidts v
      = [(secure1psid, k), (secure1psidts, v)] := by
    unfold dictInsert hasKey
    simp [psid_beq_psidts]
  have hdir : directTasks [(secure1psid, k)] = [] := by
    unfold directTasks hasKey
    simp [psid_beq_psidts]
  have hcache := cacheTasks_keyed [(secure1psid, k)] env k v hgv hfile hread hv
  rw [hmerge] at hcache
  have hcol : collectTasks [(secure1psid, k)] env
      = .ok [[(secure1psid, k), (secure1psidts, v)]] := by
    unfold collectTasks
    rw [hcache, hdir, hbrowser]
    simp
  have hprobe : probeSuccess env.net [(secure1psid, k), (secure1psidts, v)]
      = some ("abc123", [(secure1psid, k), (secure1psidts, v)]) := by
    rw [probeSuccess_eq, hnet]
    simp [hst, htok]
  refine ⟨hmerge, hcol, ?_⟩
  unfold get_access_token
  rw [hcol]
  have hrace : raceLoop env.net [[(secure1psid, k), (secure1psidts, v)]]
      = some ("abc123", [(secure1psid, k), (secure1psidts, v)]) := by
    rw [raceLoop_cons, hprobe]
  rw [hrace]

/-- Environment with a non-empty cache entry for identity K and a network
that answers the marker body abc123 for the merged candidate only. -/
def envCacheWin : Env :=
  { cacheFiles := [(cacheFileName "K", .ok "V")]
    browser := .error "no browser"
    net := fun c =>
      if c = [(secure1psid, "K"), (secure1psidts, "V")] then
        .resp 200 "\"SNlM0e\":\"abc123\""
      else .exn "conn" }

theorem c8_merged_cache_success_witness :
    get_access_token [(secure1psid, "K")] envCacheWin
        [[(secure1psid, "K"), (secure1psidts, "V")]]
      = .ok ("abc123", [(secure1psid, "K"), (secure1psidts, "V")]) :=
  (c8_merged_cache_success "K" "V" envCacheWin 200 "\"SNlM0e\":\"abc123\""
    rfl rfl rfl (by decide) (by decide) rfl rfl).2.2

end GeminiAuth

namespace GeminiAuth

theorem hasKey_of_getVal {d : Dict} {k v : String} (h : getVal d k = some v) :
    hasKey d k = true := by
  unfold getVal at h
  unfold hasKey
  rw [List.any_eq_true]
  exact ⟨(k, v), mem_of_lookup_eq_some h, by simp⟩

theorem hasKey_dictInsert_self (d : Dict) (k v : String) :
    hasKey (dictInsert d k v) k = true := by
  unfold dictInsert
  by_cases h : hasKey d k = true
  · rw [if_pos h]
    unfold hasKey at h ⊢
    rw [List.any_eq_true] at h ⊢
    obtain ⟨p, hp, hpk⟩ := h
    refine ⟨(k, v), ?_, by simp⟩
    have he : (if p.1 == k then (k, v) else p) = (k, v) := by simp [hpk]
    exact List.mem_map.mpr ⟨p, hp, he⟩
  · rw [if_neg h]
    unfold hasKey
    rw [List.any_eq_true]
    exact ⟨(k, v), by simp, by simp⟩

theorem hasKey_dictInsert_of (d : Dict) (k v k' : String)
    (h : hasKey d k' = true) : hasKey (dictInsert d k v) k' = true := by
  unfold dictInsert
  by_cases hk : hasKey d k = true
  · rw [if_pos hk]
    unfold hasKey at h ⊢
    rw [List.any_eq_true] at h ⊢
    obtain ⟨p, hp, hpk⟩ := h
    by_cases hpk2 : (p.1 == k) = true
    · have h1 : p.1 = k := by simpa using hpk2
      have h2 : p.1 = k' := by simpa using hpk
      refine ⟨(k, v), ?_, by simp [← h1, h2]⟩
      have he : (if p.1 == k then (k, v) else p) = (k, v) := by simp [hpk2]
      exact List.mem_map.mpr ⟨p, hp, he⟩
    · refine ⟨p, ?_, hpk⟩
      have he : (if p.1 == k then (k, v) else p) = p := by simp [hpk2]
      exact List.mem_map.mpr ⟨p, hp, he⟩
  · rw [if_neg hk]
    unfold hasKey at h ⊢
    rw [List.any_eq_true] at h ⊢
    obtain ⟨p, hp, hpk⟩ := h
    exact ⟨p, List.mem_append_left _ hp, hpk⟩

theorem scanTasks_mem {l : List (String × Except String String)}
    {ds : List Dict} (h : scanTasks l = .ok ds) :
    ∀ c ∈ ds, ∃ name content, c = scanCandidate name content := by
  induction l generalizing ds with
  | nil =>
    have : ds = [] := by
      unfold scanTasks at h
      simpa using h.symm
    subst this
    intro c hc
    cases hc
  | cons p rest ih =>
    obtain ⟨name, r⟩ := p
    unfold scanTasks at h
    cases r with
    | error e => cases h
    | ok content =>
      cases ht : scanTasks rest with
      | error e => rw [ht] at h; cases h
      | ok tail =>
        rw [ht] at h
        by_cases hc : content = ""
        · have hds : ds = tail := by simpa [hc] using h.symm
          subst hds
          exact ih ht
        · have hds : ds = scanCandidate name content :: tail := by
            simpa [hc] using h.symm
          subst hds
          intro c hcm
          rcases List.mem_cons.mp hcm with rfl | hm
          · exact ⟨name, content, rfl⟩
          · exact ih ht c hm

theorem scanCandidate_keys (name content : String) :
    hasKey (scanCandidate name content) secure1psid = true
      ∧ hasKey (scanCandidate name content) secure1psidts = true := by
  constructor <;> simp [scanCandidate, hasKey]

theorem cacheTasks_keys {base : Dict} {env : Env} {ts : List Dict}
    (h : cacheTasks base env = .ok ts) :
    ∀ c ∈ ts, hasKey c secure1psid = true ∧ hasKey c secure1psidts = true := by
  unfold cacheTasks at h
  cases hv : getVal base secure1psid with
  | some psid =>
    rw [hv] at h
    simp only at h
    by_cases hfile : isFile env (cacheFileName psid) = true
    · rw [if_pos hfile] at h
      cases hr : readText env (cacheFileName psid) with
      | error e => rw [hr] at h; cases h
      | ok content =>
        rw [hr] at h
        by_cases hc : content = ""
        · have hds : ts = [] := by simpa [hc] using h.symm
          subst hds
          intro c hcm
          cases hcm
        · have hds : ts = [dictInsert base secure1psidts content] := by
            simpa [hc] using h.symm
          subst hds
          intro c hcm
          rcases List.mem_singleton.mp hcm with rfl
          exact ⟨hasKey_dictInsert_of _ _ _ _ (hasKey_of_getVal hv),
            hasKey_dictInsert_self _ _ _⟩
    · rw [if_neg hfile] at h
      have hds : ts = [] := by simpa using h.symm
      subst hds
      intro c hcm
      cases hcm
  | none =>
    rw [hv] at h
    intro c hcm
    obtain ⟨name, content, rfl⟩ := scanTasks_mem h c hcm
    exact scanCandidate_keys name content

theorem browserTasks_keys (env : Env) :
    ∀ c ∈ browserTasks env, hasKey c secure1psid = true := by
  intro c hc
  unfold browserTasks at hc
  repeat' split at hc
  all_goals first
    | (rcases List.mem_singleton.mp hc with rfl
       simp [hasKey])
    | cases hc

theorem directTasks_keys (base : Dict) :
    ∀ c ∈ directTasks base,
      hasKey c secure1psid = true ∧ hasKey c secure1psidts = true := by
  unfold directTasks
  by_cases h : (hasKey base secure1psid && hasKey base secure1psidts) = true
  · rw [if_pos h]
    intro c hc
    rcases List.mem_singleton.mp hc with rfl
    exact Bool.and_eq_true_iff.mp h
  · rw [if_neg h]
    intro c hc
    cases hc

theorem collectTasks_parts {base : Dict} {env : Env} {tasks : List Dict}
    (h : collectTasks base env = .ok tasks) :
    ∃ ts, cacheTasks base env = .ok ts
      ∧ tasks = directTasks base ++ ts ++ browserTasks env := by
  unfold collectTasks at h
  cases hc : cacheTasks base env with
  | error e => rw [hc] at h; cases h
  | ok ts =>
    rw [hc] at h
    exact ⟨ts, rfl, by simpa using h.symm⟩

theorem probeSuccess_snd {net : Dict → NetResult} {c : Dict}
    {r : String × Dict} (h : probeSuccess net c = some r) : r.2 = c := by
  rw [probeSuccess_eq] at h
  cases hnet : net c with
  | exn e => rw [hnet] at h; cases h
  | resp st text =>
    rw [hnet] at h
    cases hst : isSuccessStatus st with
    | false => simp [hst] at h
    | true =>
      cases hs : searchToken text with
      | none => simp [hst, hs] at h
      | some tok =>
        simp [hst, hs] at h
        rw [← h]

theorem raceLoop_mem {net : Dict → NetResult} {l : List Dict}
    {res : String × Dict} (h : raceLoop net l = some res) : res.2 ∈ l := by
  induction l with
  | nil => cases h
  | cons c rest ih =>
    rw [raceLoop_cons] at h
    cases hp : probeSuccess net c with
    | some r =>
      rw [hp] at h
      have hr : r = res := by simpa using h
      subst hr
      rw [probeSuccess_snd hp]
      exact List.mem_cons_self _ _
    | none =>
      rw [hp] at h
      exact List.mem_cons_of_mem _ (ih h)

/-- Claim C10: every launched candidate carries the primary identity key,
every direct and cache candidate additionally carries the secondary key,
and the cookie dict returned on success always carries the primary
identity key. -/
theorem c10_candidate_key_invariant (base : Dict) (env : Env)
    (tasks : List Dict) (hc : collectTasks base env = .ok tasks) :
    (∀ c ∈ tasks, hasKey c secure1psid = true)
      ∧ (∀ c ∈ directTasks base, hasKey c secure1psidts = true)
      ∧ (∀ ts, cacheTasks base env = .ok ts →
          ∀ c ∈ ts, hasKey c secure1psidts = true)
      ∧ (∀ order res, order.Perm tasks →
          get_access_token base env order = .ok res →
          hasKey res.2 secure1psid = true) := by
  obtain ⟨ts, hts, rfl⟩ := collectTasks_parts hc
  have hall : ∀ c ∈ directTasks base ++ ts ++ browserTasks env,
      hasKey c secure1psid = true := by
    intro c hm
    rcases List.mem_append.mp hm with hm1 | hm2
    · rcases List.mem_append.mp hm1 with hd | hcs
      · exact (directTasks_keys base c hd).1
      · exact (cacheTasks_keys hts c hcs).1
    · exact browserTasks_keys env c hm2
  refine ⟨hall, fun c hd => (directTasks_keys base c hd).2, ?_, ?_⟩
  · intro ts' hts' c hcm
    exact (cacheTasks_keys hts' c hcm).2
  · intro order res hperm hget
    unfold get_access_token at hget
    rw [hc] at hget
    cases hr : raceLoop env.net order with
    | none => rw [hr] at hget; cases hget
    | some r =>
      rw [hr] at hget
      have hres : r = res := by simpa using hget
      subst hres
      exact hall _ (hperm.mem_iff.mp (raceLoop_mem hr))

theorem c10_candidate_key_invariant_witness :
    hasKey [(secure1psid, "B")] secure1psid = true :=
  (c10_candidate_key_invariant [] envBrowserWin [[(secure1psid, "B")]] rfl).1
    [(secure1psid, "B")] (List.mem_singleton.mpr rfl)

end GeminiAuth

namespace GeminiAuth

/-- Heap of Python dict objects live during one call: an address is an
index into the list, and the base cookies object sits at address 0. The
heap-explicit definitions below re-state the collection phase with every
dict construction made an explicit allocation, to express object identity,
freshness and the absence of mutation. -/
abbrev Heap := List Dict

/-- Allocation of a fresh dict object at the end of the heap, returning
its address. -/
def alloc (h : Heap) (d : Dict) : Heap × Nat := (h ++ [d], h.length)

/-- Allocate one fresh object per dict in the list, appending the new
addresses. -/
def allocAll (h : Heap) (addrs : List Nat) : List Dict → Heap × List Nat
  | [] => (h, addrs)
  | d :: ds =>
    let (h', a) := alloc h d
    allocAll h' (addrs ++ [a]) ds

/-- Heap-explicit scan branch: for each glob-matched file read in order, a
read error propagates, and each non-empty content allocates a fresh
reconstructed candidate object. -/
def scanTasksH (h : Heap) (addrs : List Nat) :
    List (String × Except String String) → Heap × Except String (List Nat)
  | [] => (h, .ok addrs)
  | (name, r) :: rest =>
    match r with
    | .error e => (h, .error e)
    | .ok content =>
      if content ≠ "" then
        let (h', a) := alloc h (scanCandidate name content)
        scanTasksH h' (addrs ++ [a]) rest
      else scanTasksH h addrs rest

/-- Heap-explicit browser step: each browser candidate (the source builds
at most one) is a freshly allocated object. -/
def finishBrowserH (h : Heap) (addrs : List Nat) (env : Env) :
    Heap × Except String (List Nat) :=
  ((allocAll h addrs (browserTasks env)).1,
    .ok (allocAll h addrs (browserTasks env)).2)

/-- Heap-explicit candidate collection: the base dict is placed at address
0 and the direct branch appends that same address (the source appends the
same object, not a copy), while the cache enrichment, the scan
reconstruction and the browser candidate each allocate fresh objects. -/
def collectTasksH (base : Dict) (env : Env) : Heap × Except String (List Nat) :=
  let h0 : Heap := [base]
  let direct : List Nat :=
    if hasKey base secure1psid && hasKey base secure1psidts then [0] else []
  match getVal base secure1psid with
  | some psid =>
    if isFile env (cacheFileName psid) then
      match readText env (cacheFileName psid) with
      | .error e => (h0, .error e)
      | .ok content =>
        if content ≠ "" then
          let (h1, a) := alloc h0 (dictInsert base secure1psidts content)
          finishBrowserH h1 (direct ++ [a]) env
        else finishBrowserH h0 direct env
    else finishBrowserH h0 direct env
  | none =>
    match scanTasksH h0 [] (globFiles env) with
    | (h1, .error e) => (h1, .error e)
    | (h1, .ok scanAddrs) => finishBrowserH h1 (direct ++ scanAddrs) env

/-- Heap-explicit race loop: the completion order is a list of task
addresses; each completed probe reads its candidate object from the heap
and no dict is written or allocated during the race. -/
def raceLoopH (net : Dict → NetResult) (h : Heap) : List Nat → Option (String × Nat)
  | [] => none
  | a :: rest =>
    match h.get? a with
    | none => raceLoopH net h rest
    | some c =>
      match probeSuccess net c with
      | some (tok, _) => some (tok, a)
      | none => raceLoopH net h rest

/-- Heap-explicit get_access_token, returning the final heap together with
the outcome so that the state of the base object can be observed whether
the call returns or raises. -/
def get_access_tokenH (base : Dict) (env : Env) (order : List Nat) :
    Heap × Except Exc (String × Nat) :=
  match collectTasksH base env with
  | (h, .error e) => (h, .error (.pyError e))
  | (h, .ok addrs) =>
    match raceLoopH env.net h order with
    | some res => (h, .ok res)
    | none => (h, .error (.authError (authErrorMsg addrs.length)))

theorem allocAll_spec :
    ∀ (ds : List Dict) (h : Heap) (addrs : List Nat),
      h.IsPrefix (allocAll h addrs ds).1
        ∧ (∀ a ∈ (allocAll h addrs ds).2,
            a ∈ addrs ∨ (h.length ≤ a ∧ a < (allocAll h addrs ds).1.length))
        ∧ (addrs.Nodup → (∀ a ∈ addrs, a < h.length) →
            (allocAll h addrs ds).2.Nodup
              ∧ ∀ a ∈ (allocAll h addrs ds).2, a < (allocAll h addrs ds).1.length) := by
  intro ds
  induction ds with
  | nil =>
    intro h addrs
    exact ⟨List.prefix_refl h, fun a ha => Or.inl ha, fun hn hb => ⟨hn, hb⟩⟩
  | cons d ds ih =>
    intro h addrs
    have heq : allocAll h addrs (d :: ds)
        = allocAll (h ++ [d]) (addrs ++ [h.length]) ds := rfl
    obtain ⟨hpre, hmem, hinv⟩ := ih (h ++ [d]) (addrs ++ [h.length])
    rw [heq]
    refine ⟨((h.prefix_append [d]).trans hpre), ?_, ?_⟩
    · intro a ha
      rcases hmem a ha with hin | ⟨hle, hlt⟩
      · rcases List.mem_append.mp hin with h1 | h2
        · exact Or.inl h1
        · have : a = h.length := by simpa using h2
          refine Or.inr ⟨le_of_eq this.symm, ?_⟩
          have hlen : (h ++ [d]).length ≤ (allocAll (h ++ [d]) (addrs ++ [h.length]) ds).1.length :=
            hpre.length_le
          have : a < (h ++ [d]).length := by simp [this]
          exact lt_of_lt_of_le this hlen
      · have hlen1 : h.length ≤ (h ++ [d]).length := by simp
        exact Or.inr ⟨le_trans hlen1 hle, hlt⟩
    · intro hn hb
      refine hinv ?_ ?_
      · rw [List.nodup_append]
        refine ⟨hn, List.nodup_singleton _, ?_⟩
        intro a ha hb2
        have : a = h.length := by simpa using hb2
        subst this
        exact absurd (hb _ ha) (lt_irrefl _)
      · intro a ha
        rcases List.mem_append.mp ha with h1 | h2
        · exact lt_of_lt_of_le (hb a h1) (by simp)
        · have : a = h.length := by simpa using h2
          simp [this]

theorem scanTasksH_spec :
    ∀ (l : List (String × Except String String)) (h : Heap) (addrs : List Nat),
      h.IsPrefix (scanTasksH h addrs l).1
        ∧ (∀ addrs', (scanTasksH h addrs l).2 = .ok addrs' →
            (∀ a ∈ addrs',
              a ∈ addrs ∨ (h.length ≤ a ∧ a < (scanTasksH h addrs l).1.length))
              ∧ (addrs.Nodup → (∀ a ∈ addrs, a < h.length) →
                  addrs'.Nodup ∧ ∀ a ∈ addrs', a < (scanTasksH h addrs l).1.length)) := by
  intro l
  induction l with
  | nil =>
    intro h addrs
    refine ⟨List.prefix_refl h, ?_⟩
    intro addrs' ha
    have : addrs = addrs' := by simpa [scanTasksH] using ha
    subst this
    exact ⟨fun a ha2 => Or.inl ha2, fun hn hb => ⟨hn, hb⟩⟩
  | cons p rest ih =>
    intro h addrs
    obtain ⟨name, r⟩ := p
    cases r with
    | error e =>
      refine ⟨List.prefix_refl h, ?_⟩
      intro addrs' ha
      cases ha
    | ok content =>
      by_cases hc : content = ""
      · have heq : scanTasksH h addrs ((name, .ok content) :: rest)
            = scanTasksH h addrs rest := by simp [scanTasksH, hc]
        rw [heq]
        exact ih h addrs
      · have heq : scanTasksH h addrs ((name, .ok content) :: rest)
            = scanTasksH (h ++ [scanCandidate name content]) (addrs ++ [h.length]) rest := by
          simp [scanTasksH, hc, alloc]
        rw [heq]
        obtain ⟨hpre, hrest⟩ := ih (h ++ [scanCandidate name content]) (addrs ++ [h.length])
        refine ⟨(h.prefix_append [scanCandidate name content]).trans hpre, ?_⟩
        intro addrs' ha
        obtain ⟨hmem, hinv⟩ := hrest addrs' ha
        constructor
        · intro a ha2
          rcases hmem a ha2 with hin | ⟨hle, hlt⟩
          · rcases List.mem_append.mp hin with h1 | h2
            · exact Or.inl h1
            · have : a = h.length := by simpa using h2
              refine Or.inr ⟨le_of_eq this.symm, ?_⟩
              have hlen := hpre.length_le
              have hlt2 : a < (h ++ [scanCandidate name content]).length := by simp [this]
              exact lt_of_lt_of_le hlt2 hlen
          · have hlen1 : h.length ≤ (h ++ [scanCandidate name content]).length := by simp
            exact Or.inr ⟨le_trans hlen1 hle, hlt⟩
        · intro hn hb
          refine hinv ?_ ?_
          · rw [List.nodup_append]
            refine ⟨hn, List.nodup_singleton _, ?_⟩
            intro a ha3 hb2
            have : a = h.length := by simpa using hb2
            subst this
            exact absurd (hb _ ha3) (lt_irrefl _)
          · intro a ha3
            rcases List.mem_append.mp ha3 with h1 | h2
            · exact lt_of_lt_of_le (hb a h1) (by simp)
            · have : a = h.length := by simpa using h2
              simp [this]

theorem head?_of_prefixHeap {l₂ : Heap} {base : Dict}
    (hp : ([base] : Heap).IsPrefix l₂) : l₂.head? = some base := by
  obtain ⟨t, rfl⟩ := hp
  rfl

theorem head?_mono_of_prefixHeap {l₁ l₂ : Heap} {base : Dict}
    (hp : l₁.IsPrefix l₂) (hh : l₁.head? = some base) : l₂.head? = some base := by
  obtain ⟨t, rfl⟩ := hp
  cases l₁ with
  | nil => cases hh
  | cons x xs => simpa using hh

theorem finishBrowserH_leaf (env : Env) (base : Dict) (hX : Heap)
    (addrsX : List Nat)
    (hhead : hX.head? = some base)
    (hone : 1 ≤ hX.length)
    (hnodup : addrsX.Nodup)
    (hbound : ∀ a ∈ addrsX, a < hX.length)
    (hzero : ∀ a ∈ addrsX, a = 0 →
        (hasKey base secure1psid && hasKey base secure1psidts) = true) :
    (finishBrowserH hX addrsX env).1.head? = some base
      ∧ ∀ addrs', (finishBrowserH hX addrsX env).2 = .ok addrs' →
          addrs'.Nodup
          ∧ (∀ a ∈ addrs', a < (finishBrowserH hX addrsX env).1.length)
          ∧ (∀ a ∈ addrs', a = 0 →
              (hasKey base secure1psid && hasKey base secure1psidts) = true) := by
  obtain ⟨hpre, hmem, hinv⟩ := allocAll_spec (browserTasks env) hX addrsX
  obtain ⟨hn', hb'⟩ := hinv hnodup hbound
  constructor
  · exact head?_mono_of_prefixHeap hpre hhead
  · intro addrs' ha
    have haddrs : addrs' = (allocAll hX addrsX (browserTasks env)).2 := by
      simpa [finishBrowserH] using ha.symm
    subst haddrs
    refine ⟨hn', hb', ?_⟩
    intro a ha2 ha0
    rcases hmem a ha2 with hin | ⟨hle, _⟩
    · exact hzero a hin ha0
    · subst ha0
      exact absurd (le_trans hone hle) (by simp)

theorem collectTasksH_spec (base : Dict) (env : Env) :
    (collectTasksH base env).1.head? = some base
      ∧ ∀ addrs, (collectTasksH base env).2 = .ok addrs →
          addrs.Nodup
          ∧ (∀ a ∈ addrs, a < (collectTasksH base env).1.length)
          ∧ (∀ a ∈ addrs, a = 0 →
              (hasKey base secure1psid && hasKey base secure1psidts) = true) := by
  unfold collectTasksH
  by_cases hD : (hasKey base secure1psid && hasKey base secure1psidts) = true
  case pos =>
    simp only [if_pos hD, List.length_singleton]
    have hdir : ∀ a ∈ ([0] : List Nat), a < ([base] : Heap).length := by simp
    have hdirn : ([0] : List Nat).Nodup := List.nodup_singleton 0
    have hdirz : ∀ a ∈ ([0] : List Nat), a = 0 →
        (hasKey base secure1psid && hasKey base secure1psidts) = true :=
      fun a _ _ => hD
    cases hv : getVal base secure1psid with
    | some psid =>
      by_cases hfile : isFile env (cacheFileName psid) = true
      · simp only [hfile, if_true]
        cases hr : readText env (cacheFileName psid) with
        | error e => exact ⟨rfl, by intro addrs h; cases h⟩
        | ok content =>
          by_cases hc : content = ""
          · simp only [hc, ne_eq, not_true_eq_false, if_false, reduceIte]
            exact finishBrowserH_leaf env base [base] [0] rfl (by simp) hdirn hdir hdirz
          · simp only [hc, ne_eq, not_false_eq_true, if_true, alloc, reduceIte]
            refine finishBrowserH_leaf env base
              ([base] ++ [dictInsert base secure1psidts content]) ([0] ++ [1])
              rfl (by simp) ?_ ?_ ?_
            · simp
            · simp
            · intro a ha h0
              exact hD
      · simp only [hfile, if_false, Bool.false_eq_true, reduceIte]
        exact finishBrowserH_leaf env base [base] [0] rfl (by simp) hdirn hdir hdirz
    | none =>
      obtain ⟨hpre, hscan⟩ := scanTasksH_spec (globFiles env) [base] []
      cases hs : scanTasksH [base] [] (globFiles env) with
      | mk h1 r =>
        rw [hs] at hpre hscan
        cases r with
        | error e => exact ⟨by simpa using head?_of_prefixHeap hpre, by intro addrs h; cases h⟩
        | ok scanAddrs =>
          obtain ⟨hmem, hinv⟩ := hscan scanAddrs rfl
          obtain ⟨hn1, hb1⟩ := hinv (List.nodup_nil) (by simp)
          refine finishBrowserH_leaf env base h1 ([0] ++ scanAddrs)
            (head?_of_prefixHeap hpre) (by simpa using hpre.length_le) ?_ ?_ ?_
          · rw [List.nodup_append]
            refine ⟨hdirn, hn1, ?_⟩
            intro a ha hb2
            rcases hmem a hb2 with hin | ⟨hle, _⟩
            · cases hin
            · have ha0 : a = 0 := by simpa using ha
              rw [ha0] at hle
              exact absurd hle (by simp)
          · intro a ha
            rcases List.mem_append.mp ha with h1m | h2m
            · have : a = 0 := by simpa using h1m
              subst this
              exact lt_of_lt_of_le (by simp) hpre.length_le
            · exact hb1 a h2m
          · intro a ha h0
            exact hD
  case neg =>
    simp only [if_neg hD, List.length_singleton]
    have hdir : ∀ a ∈ ([] : List Nat), a < ([base] : Heap).length := by simp
    have hdirn : ([] : List Nat).Nodup := List.nodup_nil
    have hdirz : ∀ a ∈ ([] : List Nat), a = 0 →
        (hasKey base secure1psid && hasKey base secure1psidts) = true := by simp
    cases hv : getVal base secure1psid with
    | some psid =>
      by_cases hfile : isFile env (cacheFileName psid) = true
      · simp only [hfile, if_true]
        cases hr : readText env (cacheFileName psid) with
        | error e => exact ⟨rfl, by intro addrs h; cases h⟩
        | ok content =>
          by_cases hc : content = ""
          · simp only [hc, ne_eq, not_true_eq_false, if_false, reduceIte]
            exact finishBrowserH_leaf env base [base] [] rfl (by simp) hdirn hdir hdirz
          · simp only [hc, ne_eq, not_false_eq_true, if_true, alloc, reduceIte]
            refine finishBrowserH_leaf env base
              ([base] ++ [dictInsert base secure1psidts content]) ([] ++ [1])
              rfl (by simp) ?_ ?_ ?_
            · simp
            · simp
            · intro a ha h0
              have : a = 1 := by simpa using ha
              subst this
              cases h0
      · simp only [hfile, if_false, Bool.false_eq_true, reduceIte]
        exact finishBrowserH_leaf env base [base] [] rfl (by simp) hdirn hdir hdirz
    | none =>
      obtain ⟨hpre, hscan⟩ := scanTasksH_spec (globFiles env) [base] []
      cases hs : scanTasksH [base] [] (globFiles env) with
      | mk h1 r =>
        rw [hs] at hpre hscan
        cases r with
        | error e => exact ⟨by simpa using head?_of_prefixHeap hpre, by intro addrs h; cases h⟩
        | ok scanAddrs =>
          obtain ⟨hmem, hinv⟩ := hscan scanAddrs rfl
          obtain ⟨hn1, hb1⟩ := hinv (List.nodup_nil) (by simp)
          refine finishBrowserH_leaf env base h1 ([] ++ scanAddrs)
            (head?_of_prefixHeap hpre) (by simpa using hpre.length_le) ?_ ?_ ?_
          · simpa using hn1
          · simpa using hb1
          · intro a ha h0
            rcases hmem a (by simpa using ha) with hin | ⟨hle, _⟩
            · cases hin
            · rw [h0] at hle
              exact absurd hle (by simp)

end GeminiAuth

namespace GeminiAuth

/-- Claim C9: get_access_token never mutates the input base cookies
object: in the heap-explicit model the object at address 0 still holds
exactly the input key-value pairs when the call returns or raises, and
every candidate other than the direct one (which is the base object
itself, appended unchanged) is a freshly allocated object with an address
distinct from the input and from every other candidate. -/
theorem c9_no_input_mutation (base : Dict) (env : Env) (order : List Nat) :
    (get_access_tokenH base env order).1.head? = some base
      ∧ (∀ h addrs, collectTasksH base env = (h, .ok addrs) →
          addrs.Nodup
            ∧ (∀ a ∈ addrs, a < h.length)
            ∧ (∀ a ∈ addrs, a = 0 →
                (hasKey base secure1psid && hasKey base secure1psidts) = true)
            ∧ h.head? = some base) := by
  obtain ⟨hhead, hspec⟩ := collectTasksH_spec base env
  constructor
  · unfold get_access_tokenH
    cases hc : collectTasksH base env with
    | mk h r =>
      rw [hc] at hhead
      cases r with
      | error e => simpa using hhead
      | ok addrs =>
        cases hr : raceLoopH env.net h order <;> simpa [hr] using hhead
  · intro h addrs hc
    rw [hc] at hspec hhead
    obtain ⟨hn, hb, hz⟩ := hspec addrs rfl
    exact ⟨hn, by simpa using hb, hz, by simpa using hhead⟩

theorem c9_no_input_mutation_witness :
    (get_access_tokenH [(secure1psid, "p")] envBare []).1.head?
        = some [(secure1psid, "p")]
      ∧ List.Nodup ([] : List Nat) :=
  ⟨(c9_no_input_mutation [(secure1psid, "p")] envBare []).1,
    ((c9_no_input_mutation [(secure1psid, "p")] envBare []).2
      [[(secure1psid, "p")]] [] rfl).1⟩

end GeminiAuth

namespace GeminiAuth

theorem get?_of_prefixHeap {l₁ l₂ : Heap} (hp : l₁.IsPrefix l₂) {a : Nat}
    (ha : a < l₁.length) : l₂.get? a = l₁.get? a := by
  obtain ⟨t, rfl⟩ := hp
  exact List.get?_append ha

theorem allocAll_agrees :
    ∀ (ds : List Dict) (h : Heap) (addrs : List Nat),
      ∃ new, (allocAll h addrs ds).2 = addrs ++ new
        ∧ new.map (fun a => (allocAll h addrs ds).1.get? a) = ds.map some := by
  intro ds
  induction ds with
  | nil =>
    intro h addrs
    exact ⟨[], by simp [allocAll], rfl⟩
  | cons d ds ih =>
    intro h addrs
    have heq : allocAll h addrs (d :: ds)
        = allocAll (h ++ [d]) (addrs ++ [h.length]) ds := rfl
    obtain ⟨new₁, hnew, hvals⟩ := ih (h ++ [d]) (addrs ++ [h.length])
    obtain ⟨hpre, -, -⟩ := allocAll_spec ds (h ++ [d]) (addrs ++ [h.length])
    refine ⟨h.length :: new₁, ?_, ?_⟩
    · rw [heq, hnew]
      simp
    · rw [heq]
      simp only [List.map_cons, hvals]
      have hget : (allocAll (h ++ [d]) (addrs ++ [h.length]) ds).1.get? h.length
          = some d := by
        rw [get?_of_prefixHeap hpre (by simp)]
        exact List.get?_concat_length h d
      rw [hget]

theorem scanTasks_cons (name : String) (r : Except String String)
    (rest : List (String × Except String String)) :
    scanTasks ((name, r) :: rest)
      = match r with
        | .error e => .error e
        | .ok content =>
          match scanTasks rest with
          | .error e => .error e
          | .ok tail =>
            if content ≠ "" then .ok (scanCandidate name content :: tail)
            else .ok tail := rfl

theorem scanTasksH_agrees :
    ∀ (l : List (String × Except String String)) (h : Heap) (addrs : List Nat),
      (∃ e, (scanTasksH h addrs l).2 = .error e ∧ scanTasks l = .error e)
        ∨ (∃ new ds, (scanTasksH h addrs l).2 = .ok (addrs ++ new)
            ∧ scanTasks l = .ok ds
            ∧ new.map (fun a => (scanTasksH h addrs l).1.get? a) = ds.map some) := by
  intro l
  induction l with
  | nil =>
    intro h addrs
    exact Or.inr ⟨[], [], by simp [scanTasksH], rfl, rfl⟩
  | cons p rest ih =>
    intro h addrs
    obtain ⟨name, r⟩ := p
    cases r with
    | error e =>
      exact Or.inl ⟨e, rfl, rfl⟩
    | ok content =>
      by_cases hc : content = ""
      · have heqH : scanTasksH h addrs ((name, .ok content) :: rest)
            = scanTasksH h addrs rest := by simp [scanTasksH, hc]
        have heqP : scanTasks ((name, .ok content) :: rest) = scanTasks rest := by
          rw [scanTasks_cons]
          cases ht : scanTasks rest with
          | error e => rfl
          | ok tail => simp [hc]
        rw [heqH, heqP]
        exact ih h addrs
      · have heqH : scanTasksH h addrs ((name, .ok content) :: rest)
            = scanTasksH (h ++ [scanCandidate name content])
                (addrs ++ [h.length]) rest := by
          simp [scanTasksH, hc, alloc]
        rw [heqH]
        obtain ⟨hpre, -⟩ := scanTasksH_spec rest (h ++ [scanCandidate name content])
          (addrs ++ [h.length])
        rcases ih (h ++ [scanCandidate name content]) (addrs ++ [h.length]) with
          ⟨e, he, hp⟩ | ⟨new₁, ds₁, hnew, hok, hvals⟩
        · refine Or.inl ⟨e, he, ?_⟩
          rw [scanTasks_cons, hp]
        · refine Or.inr ⟨h.length :: new₁, scanCandidate name content :: ds₁, ?_, ?_, ?_⟩
          · rw [hnew]
            simp
          · rw [scanTasks_cons, hok]
            simp [hc]
          · simp only [List.map_cons, hvals]
            have hget : (scanTasksH (h ++ [scanCandidate name content])
                (addrs ++ [h.length]) rest).1.get? h.length
                = some (scanCandidate name content) := by
              rw [get?_of_prefixHeap hpre (by simp)]
              exact List.get?_concat_length h (scanCandidate name content)
            rw [hget]

theorem finishBrowserH_agrees (h : Heap) (addrs : List Nat) (env : Env)
    (ts : List Dict)
    (hvals : addrs.map (fun a => h.get? a) = ts.map some)
    (hbound : ∀ a ∈ addrs, a < h.length) :
    ∃ addrs', (finishBrowserH h addrs env).2 = .ok addrs'
      ∧ addrs'.map (fun a => (finishBrowserH h addrs env).1.get? a)
          = (ts ++ browserTasks env).map some := by
  obtain ⟨new, hnew, hnvals⟩ := allocAll_agrees (browserTasks env) h addrs
  obtain ⟨hpre, -, -⟩ := allocAll_spec (browserTasks env) h addrs
  refine ⟨addrs ++ new, ?_, ?_⟩
  · simp [finishBrowserH, hnew]
  · have hstable : addrs.map (fun a => (allocAll h addrs (browserTasks env)).1.get? a)
        = addrs.map (fun a => h.get? a) := by
      apply List.map_congr_left
      intro a ha
      exact get?_of_prefixHeap hpre (hbound a ha)
    simp only [finishBrowserH, List.map_append, hstable, hvals, hnvals]

/-- Agreement of the heap-explicit collection with the plain collection:
both raise the same read error, or the candidate objects read off the
final heap at the returned addresses are exactly the plain candidate
list. -/
theorem collectTasksH_agrees (base : Dict) (env : Env) :
    (∃ e, (collectTasksH base env).2 = .error e
        ∧ collectTasks base env = .error e)
      ∨ (∃ addrs tasks, (collectTasksH base env).2 = .ok addrs
          ∧ collectTasks base env = .ok tasks
          ∧ addrs.map (fun a => (collectTasksH base env).1.get? a)
              = tasks.map some) := by
  have hdirect : directTasks base
      = if hasKey base secure1psid && hasKey base secure1psidts then [base]
        else [] := rfl
  unfold collectTasksH collectTasks cacheTasks
  by_cases hD : (hasKey base secure1psid && hasKey base secure1psidts) = true
  case pos =>
    simp only [if_pos hD, List.length_singleton]
    rw [if_pos hD] at hdirect
    cases hv : getVal base secure1psid with
    | some psid =>
      by_cases hfile : isFile env (cacheFileName psid) = true
      · simp only [hfile, if_true]
        cases hr : readText env (cacheFileName psid) with
        | error e => exact Or.inl ⟨e, rfl, rfl⟩
        | ok content =>
          by_cases hc : content = ""
          · simp only [hc, ne_eq, not_true_eq_false, reduceIte]
            obtain ⟨addrs2, h2, h3⟩ := finishBrowserH_agrees [base] [0] env [base]
              (by simp) (by simp)
            refine Or.inr ⟨addrs2, [base] ++ browserTasks env, h2, ?_, ?_⟩
            · rw [hdirect]
              simp
            · rw [h3]
          · simp only [hc, ne_eq, not_false_eq_true, reduceIte, alloc,
              List.length_singleton]
            obtain ⟨addrs2, h2, h3⟩ := finishBrowserH_agrees
              ([base] ++ [dictInsert base secure1psidts content]) ([0] ++ [1]) env
              ([base] ++ [dictInsert base secure1psidts content])
              (by simp) (by simp)
            refine Or.inr ⟨addrs2,
              [base] ++ [dictInsert base secure1psidts content] ++ browserTasks env,
              h2, ?_, ?_⟩
            · rw [hdirect]
            · rw [h3]
      · simp only [hfile, Bool.false_eq_true, reduceIte]
        obtain ⟨addrs2, h2, h3⟩ := finishBrowserH_agrees [base] [0] env [base]
          (by simp) (by simp)
        refine Or.inr ⟨addrs2, [base] ++ browserTasks env, h2, ?_, ?_⟩
        · rw [hdirect]
          simp
        · rw [h3]
    | none =>
      cases hs : scanTasksH [base] [] (globFiles env) with
      | mk h1 r =>
        have hagree := scanTasksH_agrees (globFiles env) [base] []
        have hspec2 := scanTasksH_spec (globFiles env) [base] []
        rw [hs] at hagree hspec2
        obtain ⟨hpre, hspec⟩ := hspec2
        rcases hagree with ⟨e, he, hp⟩ | ⟨new, ds, hnew, hok, hvals⟩
        · have hre : r = .error e := he
          subst hre
          exact Or.inl ⟨e, rfl, by rw [hp]⟩
        · have hro : r = .ok ([] ++ new) := hnew
          subst hro
          have hvals2 : new.map (fun a => h1.get? a) = ds.map some := hvals
          obtain ⟨hmem, hinv⟩ := hspec ([] ++ new) rfl
          obtain ⟨hn1, hb1⟩ := hinv List.nodup_nil (by simp)
          have hv0 : ([0] ++ ([] ++ new)).map (fun a => h1.get? a)
              = ([base] ++ ds).map some := by
            simp only [List.map_append, List.nil_append]
            rw [hvals2]
            have h0 : h1.get? 0 = some base := by
              rw [get?_of_prefixHeap hpre (by simp)]
              rfl
            have h0e : h1[0]? = some base := by simpa using h0
            simp [h0e]
          have hb0 : ∀ a ∈ [0] ++ ([] ++ new), a < h1.length := by
            intro a ha
            rcases List.mem_append.mp ha with h1m | h2m
            · have ha0 : a = 0 := by simpa using h1m
              rw [ha0]
              exact lt_of_lt_of_le (by simp) hpre.length_le
            · exact hb1 a (by simpa using h2m)
          obtain ⟨addrs2, h2, h3⟩ := finishBrowserH_agrees h1 ([0] ++ ([] ++ new)) env
            ([base] ++ ds) hv0 hb0
          refine Or.inr ⟨addrs2, [base] ++ ds ++ browserTasks env, h2, ?_, ?_⟩
          · rw [hok, hdirect]
          · rw [h3]
  case neg =>
    simp only [if_neg hD, List.length_singleton]
    rw [if_neg hD] at hdirect
    cases hv : getVal base secure1psid with
    | some psid =>
      by_cases hfile : isFile env (cacheFileName psid) = true
      · simp only [hfile, if_true]
        cases hr : readText env (cacheFileName psid) with
        | error e => exact Or.inl ⟨e, rfl, rfl⟩
        | ok content =>
          by_cases hc : content = ""
          · simp only [hc, ne_eq, not_true_eq_false, reduceIte]
            obtain ⟨addrs2, h2, h3⟩ := finishBrowserH_agrees [base] [] env []
              (by simp) (by simp)
            refine Or.inr ⟨addrs2, [] ++ browserTasks env, h2, ?_, ?_⟩
            · rw [hdirect]
              simp
            · rw [h3]
          · simp only [hc, ne_eq, not_false_eq_true, reduceIte, alloc,
              List.length_singleton]
            obtain ⟨addrs2, h2, h3⟩ := finishBrowserH_agrees
              ([base] ++ [dictInsert base secure1psidts content]) ([] ++ [1]) env
              ([dictInsert base secure1psidts content])
              (by simp) (by simp)
            refine Or.inr ⟨addrs2,
              [dictInsert base secure1psidts content] ++ browserTasks env,
              h2, ?_, ?_⟩
            · rw [hdirect]
              simp
            · rw [h3]
      · simp only [hfile, Bool.false_eq_true, reduceIte]
        obtain ⟨addrs2, h2, h3⟩ := finishBrowserH_agrees [base] [] env []
          (by simp) (by simp)
        refine Or.inr ⟨addrs2, [] ++ browserTasks env, h2, ?_, ?_⟩
        · rw [hdirect]
          simp
        · rw [h3]
    | none =>
      cases hs : scanTasksH [base] [] (globFiles env) with
      | mk h1 r =>
        have hagree := scanTasksH_agrees (globFiles env) [base] []
        have hspec2 := scanTasksH_spec (globFiles env) [base] []
        rw [hs] at hagree hspec2
        obtain ⟨hpre, hspec⟩ := hspec2
        rcases hagree with ⟨e, he, hp⟩ | ⟨new, ds, hnew, hok, hvals⟩
        · have hre : r = .error e := he
          subst hre
          exact Or.inl ⟨e, rfl, by rw [hp]⟩
        · have hro : r = .ok ([] ++ new) := hnew
          subst hro
          have hvals2 : new.map (fun a => h1.get? a) = ds.map some := hvals
          obtain ⟨hmem, hinv⟩ := hspec ([] ++ new) rfl
          obtain ⟨hn1, hb1⟩ := hinv List.nodup_nil (by simp)
          have hv0 : ([] ++ ([] ++ new)).map (fun a => h1.get? a)
              = ds.map some := by simpa using hvals2
          have hb0 : ∀ a ∈ [] ++ ([] ++ new), a < h1.length := by
            intro a ha
            exact hb1 a (by simpa using ha)
          obtain ⟨addrs2, h2, h3⟩ := finishBrowserH_agrees h1 ([] ++ ([] ++ new)) env
            ds hv0 hb0
          refine Or.inr ⟨addrs2, ds ++ browserTasks env, h2, ?_, ?_⟩
          · rw [hok, hdirect]
            rfl
          · rw [h3]

end GeminiAuth
